import Mathlib

/-!
Verification of the DepSet dependency-expression engine
(`pkgcore/ebuild/conditionals.py`): parser, tree model, conditional
evaluator, condition extractor and stringifier.

Modelling conventions:
* Python tokens are `List Char` (`Tok`); `str.split()` is `splitWs`.
* The leaf type (`pkgcore.ebuild.atom.atom`) is opaque in the source's
  interface; it is modelled as a record carrying its textual form plus the
  slot fields used by the domain-aware stringifier.
* The pure-Python parsing loop (lines 96-198) is modelled; the optional
  C-extension fast path (`parse_depset`), the `transitive_use_atoms`
  feature and the `allow_src_uri_file_renames` extension are outside the
  verified claims and are not modelled.
* The two parallel stacks `depsets` / `raw_conditionals` are always pushed
  and popped in lockstep in the source (with `depsets` holding one extra
  bottom list, the root); they are modelled as a root list plus a single
  stack of tagged frames.
* Python exceptions become `Except` values; the distinct `ParseError`
  raise sites become the constructors of `PErr`.
-/

/-- A token: the character content of one whitespace-separated word. -/
abbrev Tok := List Char

/-- Python `str.split()` whitespace test (space, tab, newline, CR, VT, FF). -/
def isWs (c : Char) : Bool :=
  c = ' ' || c = '\t' || c = '\n' || c = '\r' || c = '\x0b' || c = '\x0c'

/-- Worker for `splitWs`: `acc` holds the current word reversed. -/
def splitWsAux : List Char → List Char → List Tok
  | [], acc => if acc.isEmpty then [] else [acc.reverse]
  | c :: cs, acc =>
    if isWs c then
      if acc.isEmpty then splitWsAux cs [] else acc.reverse :: splitWsAux cs []
    else splitWsAux cs (c :: acc)

/-- Python `str.split()` with no arguments: split on whitespace runs,
dropping empty words. -/
def splitWs (s : List Char) : List Tok :=
  splitWsAux s []

/-- The leaf ("atom") capability record: textual form plus the optional
slot-operator and the mutable slot/subslot pair used by the domain-aware
stringifier (external leaf contract; the atom class itself is opaque). -/
structure Atom where
  text : Tok
  slot : Tok
  subslot : Tok
  slotOp : Option Tok
  deriving DecidableEq, Repr

/-- `values.ContainmentMatch(flag, negate)` as built by the parser for a
`use` conditional: a single flag name plus the negation bit. -/
structure Cond where
  flag : Tok
  negate : Bool
  deriving DecidableEq, Repr

/-- Expression-tree nodes: leaves, `boolean.AndRestriction` groups,
`boolean.OrRestriction` groups, and `packages.Conditional` nodes. -/
inductive Node where
  | leaf (a : Atom)
  | andR (children : List Node)
  | orR (children : List Node)
  | cond (c : Cond) (children : List Node)

/-- An element-construction failure (the exception raised by the
caller-supplied `element_func`), carried as an opaque message. -/
abbrev ElemErr := Tok

/-- The distinct `ParseError` raise sites of `DepSet.parse`. -/
inductive PErr where
  /-- `ParseError(dep_str)` at a `)` closing an empty group or with no
  open frame (line 117). -/
  | badClose
  /-- `ParseError(dep_str, k2)`: operator/conditional token not followed
  by `(` (line 150). -/
  | opNoParen (k2 : Tok)
  /-- `ParseError(dep_str, k)`: tokens exhausted right after an
  operator/conditional token (StopIteration handler, line 183). -/
  | exhausted (k : Tok)
  /-- `ParseError(dep_str, k)`: bare token containing `|` (line 157). -/
  | badPipe (k : Tok)
  /-- `ParseError(dep_str)`: more than one frame open at end of input
  (line 189). -/
  | unclosed
  /-- `raise_from(ParseError(dep_str, e))`: the element function failed;
  its error is preserved as the cause (line 185). -/
  | leafFail (cause : ElemErr)
  deriving DecidableEq, Repr

/-- Default operator map (line 98): `""` is `AndRestriction`, `"||"` is
`OrRestriction`; membership test `k in operators`. -/
def isOpKey (k : Tok) : Bool :=
  k = [] || k = ['|', '|']

/-- `operators[tag](*children)` under the default operator map. -/
def opNode (tag : Tok) (children : List Node) : Node :=
  if tag = ['|', '|'] then .orR children else .andR children

/-- Lines 126-130: split a conditional tag into flag name and negation
(`c[1:-1]` with `negate=True` when it starts with `!`, else `c[:-1]`). -/
def decomposeCondTok : Tok → Cond
  | '!' :: rest => ⟨rest.dropLast, true⟩
  | rest => ⟨rest.dropLast, false⟩

/-- One open frame: the tag that opened it (`raw_conditionals` entry) and
its pending children (`depsets` entry). -/
structure Frame where
  tag : Tok
  children : List Node

/-- `depsets[-1].append(n)`: append to the innermost open frame, or to the
root list when no frame is open. -/
def pushTop (n : Node) : List Frame → List Node → List Frame × List Node
  | f :: fs, root => (⟨f.tag, f.children ++ [n]⟩ :: fs, root)
  | [], root => ([], root ++ [n])

/-- Outcome of processing one token of the loop body: an error, or the
updated state, with `drop2` set when the lookahead token (`words.next()`
after an operator/conditional token) was consumed as well. -/
inductive StepRes where
  | err (e : PErr)
  | cont (drop2 : Bool) (frames : List Frame) (root : List Node) (nc : Bool)

/-- The body of the `for k in words` loop of `DepSet.parse`
(lines 111-173), for one token `k` with remaining tokens `ks`:
`)` closes the innermost frame (error on empty group or no open frame;
an operator-tagged frame with a single child is spliced, with more
children wrapped in the operator's node; a conditional tag always wraps
and sets the `node_conds` flag); `(` opens an implicit AND frame;
a token ending in `?` or an operator key must be followed by `(` and
opens a tagged frame; any other token containing `|` is an error;
anything else is built into a leaf by `element_func`. -/
def parseStep (ef : Tok → Except ElemErr Atom) (k : Tok) (ks : List Tok)
    (frames : List Frame) (root : List Node) (nc : Bool) : StepRes :=
  if k = [')'] then
    match frames with
    | [] => .err .badClose
    | f :: fs =>
      if f.children.isEmpty then .err .badClose
      else if isOpKey f.tag then
        match f.children with
        | [c] => .cont false (pushTop c fs root).1 (pushTop c fs root).2 nc
        | cs =>
          .cont false (pushTop (opNode f.tag cs) fs root).1
            (pushTop (opNode f.tag cs) fs root).2 nc
      else
        .cont false (pushTop (.cond (decomposeCondTok f.tag) f.children) fs root).1
          (pushTop (.cond (decomposeCondTok f.tag) f.children) fs root).2 true
  else if k = ['('] then
    .cont false (⟨[], []⟩ :: frames) root nc
  else if k.getLast? = some '?' || isOpKey k then
    match ks with
    | [] => .err (.exhausted k)
    | k2 :: _ =>
      if k2 = ['('] then .cont true (⟨k, []⟩ :: frames) root nc
      else .err (.opNoParen k2)
  else if k.contains '|' then .err (.badPipe k)
  else
    match ef k with
    | .ok a => .cont false (pushTop (.leaf a) frames root).1 (pushTop (.leaf a) frames root).2 nc
    | .error e => .err (.leafFail e)

/-- The parsing loop of `DepSet.parse` (lines 109-189) over a token list,
threading the open-frame stack, the root list and the `node_conds` flag.
An empty token list with frames still open is the `len(depsets) != 1`
check after the loop. -/
def parseRun (ef : Tok → Except ElemErr Atom) :
    List Tok → List Frame → List Node → Bool → Except PErr (List Node × Bool)
  | [], [], root, nc => .ok (root, nc)
  | [], _ :: _, _, _ => .error .unclosed
  | k :: ks, frames, root, nc =>
    match parseStep ef k ks frames root nc with
    | .err e => .error e
    | .cont drop2 fr2 root2 nc2 =>
      parseRun ef (if drop2 then ks.drop 1 else ks) fr2 root2 nc2
termination_by toks => toks.length
decreasing_by
  cases drop2
  all_goals simp [List.length_drop]
  all_goals omega

/-- Run the parser from the initial state (one empty root, no frames,
`node_conds = False`). -/
def parseToks (ef : Tok → Except ElemErr Atom) (toks : List Tok) :
    Except PErr (List Node × Bool) :=
  parseRun ef toks [] [] false

/-- One entry of a leaf's condition list in `node_conds` (lines 257-260):
the single restriction itself when the guard stack has one element, else
`values.AndRestriction(*restrictions)`. -/
inductive CondEntry where
  | single (c : Cond)
  | conj (cs : List Cond)
  deriving DecidableEq, Repr

/-- The memoization cell `_node_conds`: either the boolean flag stored by
`parse` or the computed per-leaf condition map. -/
inductive NCState where
  | flag (b : Bool)
  | computed (m : List (Atom × List CondEntry))

/-- The DepSet value: root restriction sequence, the `element_class` tag,
and the `_node_conds` cell. (`_known_conditionals` is not needed by any
verified property and is omitted.) -/
structure DepSet where
  restrictions : List Node
  elementClass : Tok
  ncState : NCState

/-- `DepSet.parse`: run the loop and package the result
(`cls(tuple(restrictions), element_class, node_conds)`, line 198). -/
def DepSet.parse (ef : Tok → Except ElemErr Atom) (elementClass : Tok)
    (depStr : List Char) : Except PErr DepSet :=
  (parseToks ef (splitWs depStr)).map fun r => ⟨r.1, elementClass, .flag r.2⟩

/-- `has_conditionals` (lines 274-276): `bool(self._node_conds)`. -/
def DepSet.hasConditionals (t : DepSet) : Bool :=
  match t.ncState with
  | .flag b => b
  | .computed m => !m.isEmpty

/-- The depth-first walk `DepSet.find_cond_nodes` (lines 226-242): descend
through groups, push the guard stack at `Conditional` nodes (the `None`
sentinel pop is the return from the recursive call here), and yield a leaf
with a copy of the stack when the stack is non-empty or
`yield_non_conditionals` is set. Transitive-use atoms are not modelled. -/
def findCondNodes (yieldNon : Bool) : List Node → List Cond → List (Atom × List Cond)
  | [], _ => []
  | .leaf a :: rest, stack =>
    (if !stack.isEmpty || yieldNon then [(a, stack)] else []) ++
      findCondNodes yieldNon rest stack
  | .andR cs :: rest, stack =>
    findCondNodes yieldNon cs stack ++ findCondNodes yieldNon rest stack
  | .orR cs :: rest, stack =>
    findCondNodes yieldNon cs stack ++ findCondNodes yieldNon rest stack
  | .cond c cs :: rest, stack =>
    findCondNodes yieldNon cs (stack ++ [c]) ++ findCondNodes yieldNon rest stack

/-- Lines 257-260: `restrictions[0]` for a single guard, else
`values.AndRestriction(*restrictions)`. -/
def mkCurrent : List Cond → CondEntry
  | [c] => .single c
  | cs => .conj cs

/-- `nc.setdefault(payload, []).append(current)` on an insertion-ordered
association list. -/
def addNC : List (Atom × List CondEntry) → Atom → CondEntry →
    List (Atom × List CondEntry)
  | [], a, v => [(a, [v])]
  | (b, vs) :: rest, a, v =>
    if b = a then (b, vs ++ [v]) :: rest else (b, vs) :: addNC rest a v

/-- The accumulation loop of `node_conds` (lines 253-262): unconditional
leaves go to `always_required`, guarded ones into the map. -/
def ncPass : List (Atom × List Cond) → List (Atom × List CondEntry) → List Atom →
    List (Atom × List CondEntry) × List Atom
  | [], nc, ar => (nc, ar)
  | (a, []) :: rest, nc, ar => ncPass rest nc (ar ++ [a])
  | (a, c :: cs) :: rest, nc, ar => ncPass rest (addNC nc a (mkCurrent (c :: cs))) ar

/-- Lines 264-266: `del nc[k]` for every `k` in `always_required`. -/
def delKeys (nc : List (Atom × List CondEntry)) (ar : List Atom) :
    List (Atom × List CondEntry) :=
  nc.filter fun p => !ar.contains p.1

/-- The full `node_conds` computation (lines 248-268) for a root sequence. -/
def computeNodeConds (ns : List Node) : List (Atom × List CondEntry) :=
  let p := ncPass (findCondNodes true ns []) [] []
  delKeys p.1 p.2

/-- Reading the `node_conds` property (lines 244-272): returns the value
together with the DepSet whose `_node_conds` cell is now the computed map. -/
def DepSet.readNodeConds (t : DepSet) : List (Atom × List CondEntry) × DepSet :=
  match t.ncState with
  | .flag false => ([], { t with ncState := .computed [] })
  | .flag true =>
    let m := computeNodeConds t.restrictions
    (m, { t with ncState := .computed m })
  | .computed m => (m, t)

/-- Dictionary lookup in the association-list model of `node_conds`. -/
def lookupNC (a : Atom) : List (Atom × List CondEntry) → Option (List CondEntry)
  | [] => none
  | (b, vs) :: rest => if b = a then some vs else lookupNC a rest

/-- Modelled from the spec: the recursive body of
`boolean.base.evaluate_conditionals` (`pkgcore/restrictions/boolean.py` is
not under src/; only its caller `evaluate_depset` is). Spec section 4.3:
group nodes pass through with each child evaluated; a Conditional with
flag `f` and negation `n` keeps and splices its children when a tristate
filter is given and `f` is not in it, otherwise iff `(f` in env`)` XOR
`n`; a dropped guard discards the whole subtree. -/
def evalNodes (env : List Tok) (tri : Option (List Tok)) : List Node → List Node
  | [] => []
  | .leaf a :: rest => .leaf a :: evalNodes env tri rest
  | .andR cs :: rest => .andR (evalNodes env tri cs) :: evalNodes env tri rest
  | .orR cs :: rest => .orR (evalNodes env tri cs) :: evalNodes env tri rest
  | .cond c cs :: rest =>
    let keep :=
      match tri with
      | some f => if !f.contains c.flag then true else env.contains c.flag != c.negate
      | none => env.contains c.flag != c.negate
    (if keep then evalNodes env tri cs else []) ++ evalNodes env tri rest

/-- `DepSet.evaluate_depset` (lines 206-224): identity short-circuit when
`has_conditionals` is false, else a rebuilt DepSet with the same
`element_class` and `node_conds = False`. -/
def DepSet.evaluateDepset (t : DepSet) (env : List Tok) (tri : Option (List Tok)) :
    DepSet :=
  if !t.hasConditionals then t
  else ⟨evalNodes env tri t.restrictions, t.elementClass, .flag false⟩

/-- Modelled from the spec: the live-package collaborator used at line 338
(`max(sorted(domain.all_livefs_repos.itermatch(node)))` — the repository
classes are not under src/): for a leaf pattern it yields the
highest-ranked installed package's slot/subslot pair. -/
def Domain := Atom → Tok × Tok

/-- `_internal_stringify_boolean` (lines 319-345) over a node sequence:
produces the visited chunks in order and, since the slot rewrite mutates
leaves in place, also the sequence of nodes as they stand afterwards. -/
def stringifyNodes (dom : Option Domain) (func : Atom → Tok) :
    List Node → List Tok × List Node
  | [] => ([], [])
  | .leaf a :: rest =>
    let a2 :=
      match dom with
      | some d =>
        if a.slotOp = some ['='] then ⟨a.text, (d a).1, (d a).2, a.slotOp⟩ else a
      | none => a
    let r := stringifyNodes dom func rest
    (func a2 :: r.1, .leaf a2 :: r.2)
  | .orR cs :: rest =>
    let inner := stringifyNodes dom func cs
    let r := stringifyNodes dom func rest
    (['|', '|', ' ', '('] :: (inner.1 ++ [')'] :: r.1), .orR inner.2 :: r.2)
  | .andR cs :: rest =>
    let inner := stringifyNodes dom func cs
    let r := stringifyNodes dom func rest
    (['('] :: (inner.1 ++ [')'] :: r.1), .andR inner.2 :: r.2)
  | .cond c cs :: rest =>
    let inner := stringifyNodes dom func cs
    let r := stringifyNodes dom func rest
    (((if c.negate then ['!'] else []) ++ c.flag ++ ['?', ' ', '(']) ::
        (inner.1 ++ [')'] :: r.1),
      .cond c inner.2 :: r.2)

/-- Python `' '.join`. -/
def sjoin : List Tok → List Char
  | [] => []
  | [t] => t
  | t :: ts => t ++ ' ' :: sjoin ts

/-- `stringify_boolean` (lines 309-317) applied to a DepSet: visit every
root node and space-join the chunks; the rewritten nodes are returned to
expose the in-place slot mutation. -/
def stringifyBoolean (t : DepSet) (func : Atom → Tok) (dom : Option Domain) :
    List Char × List Node :=
  let r := stringifyNodes dom func t.restrictions
  (sjoin r.1, r.2)

/-- Default leaf formatter (`func=str`): an atom renders as its text. -/
def atomStr (a : Atom) : Tok := a.text

/-- Default element function for concrete runs: every token builds an atom
whose text is the token. -/
def mkAtom (k : Tok) : Atom := ⟨k, [], [], none⟩

/-- `mkAtom` as an always-succeeding element function. -/
def mkEf (k : Tok) : Except ElemErr Atom := .ok (mkAtom k)

/-- Abstract syntax of the token-level DepSet grammar (spec section 6):
a bare leaf token, a parenthesised group (an OR group headed by the double-pipe operator or a
plain AND group), or a conditional-tagged group. -/
inductive Syn where
  | leaf (k : Tok)
  | grp (isOr : Bool) (cs : List Syn)
  | cnd (k : Tok) (cs : List Syn)

/-- The token stream of a syntax forest. -/
def synToksL : List Syn → List Tok
  | [] => []
  | .leaf k :: r => k :: synToksL r
  | .grp isOr cs :: r =>
    (if isOr then [['|', '|']] else []) ++ ['('] :: (synToksL cs ++ [')'] :: synToksL r)
  | .cnd k cs :: r => k :: ['('] :: (synToksL cs ++ [')'] :: synToksL r)

/-- The tree the parser builds for a syntax forest: leaves through the
element map `g`, single-child operator groups spliced to their child,
conditionals always wrapped. -/
def denoteL (g : Tok → Atom) : List Syn → List Node
  | [] => []
  | .leaf k :: r => .leaf (g k) :: denoteL g r
  | .grp isOr cs :: r =>
    (match denoteL g cs with
     | [c] => c
     | ds => if isOr then .orR ds else .andR ds) :: denoteL g r
  | .cnd k cs :: r => .cond (decomposeCondTok k) (denoteL g cs) :: denoteL g r

/-- A token that the parser treats as a leaf: non-empty, no whitespace,
not a parenthesis, not ending in `?`, and without a pipe character. -/
def leafTokOk (k : Tok) : Bool :=
  !k.isEmpty && k.all (fun c => !isWs c) && !(k = ['('] : Bool) &&
    !(k = [')'] : Bool) && !(k.getLast? = some '?' : Bool) && !k.contains '|'

/-- A conditional tag token: ends in `?` and contains no whitespace. -/
def condTokOk (k : Tok) : Bool :=
  (k.getLast? = some '?' : Bool) && k.all (fun c => !isWs c)

/-- Syntactic validity of a forest; with `strict` set, operator groups
must have at least two children (no degenerate single-child groups). -/
def goodSynL (strict : Bool) : List Syn → Bool
  | [] => true
  | .leaf k :: r => leafTokOk k && goodSynL strict r
  | .grp _ cs :: r =>
    (if strict then decide (2 ≤ cs.length) else !cs.isEmpty) &&
      goodSynL strict cs && goodSynL strict r
  | .cnd k cs :: r => condTokOk k && !cs.isEmpty && goodSynL strict cs && goodSynL strict r

/-- Whether processing a forest closes at least one conditional frame
(which is what sets the parser's `node_conds` flag). -/
def hasCndL : List Syn → Bool
  | [] => false
  | .leaf _ :: r => hasCndL r
  | .grp _ cs :: r => hasCndL cs || hasCndL r
  | .cnd _ _ :: _ => true

/-- Well-formedness of built trees: every group and conditional node has a
non-empty children sequence, recursively. -/
def wfL : List Node → Bool
  | [] => true
  | .leaf _ :: r => wfL r
  | .andR cs :: r => !cs.isEmpty && wfL cs && wfL r
  | .orR cs :: r => !cs.isEmpty && wfL cs && wfL r
  | .cond _ cs :: r => !cs.isEmpty && wfL cs && wfL r

/-- True when a node sequence contains no `Conditional` node anywhere. -/
def noCondL : List Node → Bool
  | [] => true
  | .leaf _ :: r => noCondL r
  | .andR cs :: r => noCondL cs && noCondL r
  | .orR cs :: r => noCondL cs && noCondL r
  | .cond _ _ :: _ => false

/-- The leaves of a forest reachable through a path with no `Conditional`
ancestor. -/
def uncondLeaves : List Node → List Atom
  | [] => []
  | .leaf a :: r => a :: uncondLeaves r
  | .andR cs :: r => uncondLeaves cs ++ uncondLeaves r
  | .orR cs :: r => uncondLeaves cs ++ uncondLeaves r
  | .cond _ _ :: r => uncondLeaves r

/-- The slot/subslot rewrite of the domain-aware stringifier on one leaf
(lines 336-340): only a leaf whose slot operator is `=` is overwritten,
with the collaborator's slot/subslot pair. -/
def rewriteLeaf (d : Domain) (a : Atom) : Atom :=
  if a.slotOp = some ['='] then ⟨a.text, (d a).1, (d a).2, a.slotOp⟩ else a

/-- Apply a leaf rewrite uniformly through a forest. -/
def mapLeavesL (h : Atom → Atom) : List Node → List Node
  | [] => []
  | .leaf a :: r => .leaf (h a) :: mapLeavesL h r
  | .andR cs :: r => .andR (mapLeavesL h cs) :: mapLeavesL h r
  | .orR cs :: r => .orR (mapLeavesL h cs) :: mapLeavesL h r
  | .cond c cs :: r => .cond c (mapLeavesL h cs) :: mapLeavesL h r

/-- The DepSet parsed from `x? ( a/b ) a/b`: the leaf `a/b` occurs both
under the `x` conditional and unconditionally. -/
def cexT0 : DepSet :=
  ⟨[.cond ⟨['x'], false⟩ [.leaf (mkAtom ['a', '/', 'b'])],
    .leaf (mkAtom ['a', '/', 'b'])], ['a'], .flag true⟩

/-- `cexT0` after its `node_conds` view has been read (and memoized). -/
def cexT1 : DepSet := (cexT0.readNodeConds).2


/-- Append a whole list of nodes to the innermost frame (or the root). -/
def pushList (ns : List Node) : List Frame → List Node → List Frame × List Node
  | f :: fs, root => (⟨f.tag, f.children ++ ns⟩ :: fs, root)
  | [], root => ([], root ++ ns)

/-- `evaluate_depset` identity short-circuit: `has_conditionals` false
returns the receiver itself (lines 216-217). -/
theorem evaluateDepset_of_false {t : DepSet} (env : List Tok)
    (tri : Option (List Tok)) (h : t.hasConditionals = false) :
    t.evaluateDepset env tri = t := by
  rw [DepSet.evaluateDepset, h]
  rfl

/-- `evaluate_depset` rebuild: with conditionals present, a fresh DepSet
with evaluated restrictions, the same element class and a false flag
(lines 219-224). -/
theorem evaluateDepset_of_true {t : DepSet} (env : List Tok)
    (tri : Option (List Tok)) (h : t.hasConditionals = true) :
    t.evaluateDepset env tri =
      ⟨evalNodes env tri t.restrictions, t.elementClass, .flag false⟩ := by
  rw [DepSet.evaluateDepset, h]
  rfl

theorem pushList_nil (fr : List Frame) (root : List Node) :
    pushList [] fr root = (fr, root) := by
  cases fr <;> simp [pushList]

theorem pushTop_eq_pushList (n : Node) (fr : List Frame) (root : List Node) :
    pushTop n fr root = pushList [n] fr root := by
  cases fr <;> rfl

theorem pushList_append (ns ms : List Node) (fr : List Frame) (root : List Node) :
    pushList (ns ++ ms) fr root =
      pushList ms (pushList ns fr root).1 (pushList ns fr root).2 := by
  cases fr <;> simp [pushList]

theorem parseRun_openParen (ef : Tok → Except ElemErr Atom) (ks : List Tok)
    (fr : List Frame) (root : List Node) (nc : Bool) :
    parseRun ef (['('] :: ks) fr root nc =
      parseRun ef ks (⟨[], []⟩ :: fr) root nc := by
  rw [parseRun.eq_def]
  simp [parseStep]

theorem parseRun_opTok (ef : Tok → Except ElemErr Atom) (k : Tok) (ks : List Tok)
    (fr : List Frame) (root : List Node) (nc : Bool)
    (h : (decide (k.getLast? = some '?') || isOpKey k) = true)
    (h1 : k ≠ [')']) (h2 : k ≠ ['(']) :
    parseRun ef (k :: ['('] :: ks) fr root nc =
      parseRun ef ks (⟨k, []⟩ :: fr) root nc := by
  rw [parseRun.eq_def]
  simp [parseStep, h, h1, h2]

theorem parseRun_leafTok (ef : Tok → Except ElemErr Atom) (k : Tok) (ks : List Tok)
    (fr : List Frame) (root : List Node) (nc : Bool) (a : Atom)
    (h : (decide (k.getLast? = some '?') || isOpKey k) = false)
    (h1 : k ≠ [')']) (h2 : k ≠ ['(']) (h3 : k.contains '|' = false)
    (ha : ef k = .ok a) :
    parseRun ef (k :: ks) fr root nc =
      parseRun ef ks (pushTop (.leaf a) fr root).1 (pushTop (.leaf a) fr root).2 nc := by
  have h4 : ¬ ('|' ∈ k) := by simpa using h3
  rw [parseRun.eq_def]
  simp [parseStep, h, h1, h2, h4, ha]

theorem parseRun_close_single (ef : Tok → Except ElemErr Atom) (ks : List Tok)
    (f : Frame) (fs : List Frame) (root : List Node) (nc : Bool) (c : Node)
    (h1 : f.children = [c]) (h2 : isOpKey f.tag = true) :
    parseRun ef ([')'] :: ks) (f :: fs) root nc =
      parseRun ef ks (pushTop c fs root).1 (pushTop c fs root).2 nc := by
  obtain ⟨tag, children⟩ := f
  simp only at h1 h2
  subst h1
  rw [parseRun.eq_def]
  simp [parseStep, h2]

theorem parseRun_close_multi (ef : Tok → Except ElemErr Atom) (ks : List Tok)
    (f : Frame) (fs : List Frame) (root : List Node) (nc : Bool)
    (h1 : ¬f.children.isEmpty = true) (h2 : isOpKey f.tag = true)
    (h3 : ∀ c, f.children ≠ [c]) :
    parseRun ef ([')'] :: ks) (f :: fs) root nc =
      parseRun ef ks (pushTop (opNode f.tag f.children) fs root).1
        (pushTop (opNode f.tag f.children) fs root).2 nc := by
  obtain ⟨tag, children⟩ := f
  simp only at h1 h2 h3
  match children, h1, h3 with
  | [], h1, _ => simp at h1
  | [c], _, h3 => exact absurd rfl (h3 c)
  | c1 :: c2 :: cs, _, _ =>
    rw [parseRun.eq_def]
    simp [parseStep, h2]

theorem parseRun_close_cond (ef : Tok → Except ElemErr Atom) (ks : List Tok)
    (f : Frame) (fs : List Frame) (root : List Node) (nc : Bool)
    (h1 : ¬f.children.isEmpty = true) (h2 : isOpKey f.tag = false) :
    parseRun ef ([')'] :: ks) (f :: fs) root nc =
      parseRun ef ks (pushTop (.cond (decomposeCondTok f.tag) f.children) fs root).1
        (pushTop (.cond (decomposeCondTok f.tag) f.children) fs root).2 true := by
  obtain ⟨tag, children⟩ := f
  simp only at h1 h2
  match children, h1 with
  | c1 :: cs, _ =>
    rw [parseRun.eq_def]
    simp [parseStep, h2]

theorem pushList_cons (n : Node) (ns : List Node) (fr : List Frame) (root : List Node) :
    pushList (n :: ns) fr root =
      pushList ns (pushTop n fr root).1 (pushTop n fr root).2 := by
  cases fr <;> simp [pushList, pushTop]

theorem pushList_frame (ns : List Node) (t : Tok) (cs : List Node)
    (fr : List Frame) (root : List Node) :
    pushList ns (⟨t, cs⟩ :: fr) root = (⟨t, cs ++ ns⟩ :: fr, root) := by
  simp [pushList]

theorem denoteL_length (g : Tok → Atom) (ss : List Syn) :
    (denoteL g ss).length = ss.length := by
  induction ss using denoteL.induct g <;> simp [denoteL, *]

theorem leafTokOk_not_close {k : Tok} (h : leafTokOk k = true) : k ≠ [')'] := by
  simp only [leafTokOk, Bool.and_eq_true] at h
  simpa using h.1.1.2

theorem leafTokOk_not_open {k : Tok} (h : leafTokOk k = true) : k ≠ ['('] := by
  simp [leafTokOk] at h
  exact h.1.1.1.2

theorem leafTokOk_not_op {k : Tok} (h : leafTokOk k = true) :
    (decide (k.getLast? = some '?') || isOpKey k) = false := by
  simp [leafTokOk] at h
  obtain ⟨⟨⟨⟨⟨hne, _⟩, _⟩, _⟩, hq⟩, hp⟩ := h
  simp only [Bool.or_eq_false_iff, decide_eq_false_iff_not, isOpKey]
  refine ⟨hq, ?_, ?_⟩
  · simpa using hne
  · intro hk
    subst hk
    simp at hp

theorem leafTokOk_no_pipe {k : Tok} (h : leafTokOk k = true) :
    k.contains '|' = false := by
  simp [leafTokOk] at h
  simpa using h.2

theorem condTokOk_is_op {k : Tok} (h : condTokOk k = true) :
    (decide (k.getLast? = some '?') || isOpKey k) = true := by
  simp [condTokOk] at h
  simp [h.1]

theorem condTokOk_not_close {k : Tok} (h : condTokOk k = true) : k ≠ [')'] := by
  intro hk
  subst hk
  simp [condTokOk] at h

theorem condTokOk_not_open {k : Tok} (h : condTokOk k = true) : k ≠ ['('] := by
  intro hk
  subst hk
  simp [condTokOk] at h

theorem condTokOk_not_opKey {k : Tok} (h : condTokOk k = true) :
    isOpKey k = false := by
  simp [condTokOk] at h
  obtain ⟨hq, _⟩ := h
  rcases k with _ | ⟨c, k⟩
  · simp at hq
  · simp only [isOpKey, Bool.or_eq_false_iff]
    refine ⟨by simp, ?_⟩
    simp only [decide_eq_false_iff_not]
    intro hk
    rw [hk] at hq
    simp at hq

/-- The central parser-run lemma: the tokens of a syntactically valid
forest, followed by anything, drive the parser to push exactly the
denoted nodes onto the innermost frame, OR-ing the conditional flag. -/
theorem parseRun_forest (ef : Tok → Except ElemErr Atom) (g : Tok → Atom)
    (hg : ∀ k, ef k = .ok (g k)) (ss : List Syn) :
    goodSynL false ss = true →
    ∀ rest fr root nc,
      parseRun ef (synToksL ss ++ rest) fr root nc =
        parseRun ef rest (pushList (denoteL g ss) fr root).1
          (pushList (denoteL g ss) fr root).2 (nc || hasCndL ss) := by
  induction ss using synToksL.induct with
  | case1 =>
    intro _ rest fr root nc
    simp [synToksL, denoteL, hasCndL, pushList_nil]
  | case2 k r ihr =>
    intro hgood rest fr root nc
    simp only [goodSynL, Bool.and_eq_true] at hgood
    obtain ⟨hk, hr⟩ := hgood
    rw [synToksL, List.cons_append,
      parseRun_leafTok ef k _ fr root nc (g k) (leafTokOk_not_op hk)
        (leafTokOk_not_close hk) (leafTokOk_not_open hk) (leafTokOk_no_pipe hk) (hg k),
      ihr hr rest _ _ nc]
    simp [denoteL, hasCndL, pushList_cons]
  | case3 isOr cs r ihcs ihr =>
    intro hgood rest fr root nc
    simp only [goodSynL, Bool.and_eq_true] at hgood
    obtain ⟨⟨hne, hcs⟩, hr⟩ := hgood
    have hlen : (denoteL g cs).length = cs.length := denoteL_length g cs
    have hcsne : cs ≠ [] := by simpa using hne
    have hne2 : denoteL g cs ≠ [] := by
      intro h0
      rw [h0] at hlen
      simp only [List.length_nil] at hlen
      exact hcsne (List.length_eq_zero.mp hlen.symm)
    cases isOr with
    | true =>
      have hopen :
          parseRun ef (synToksL (.grp true cs :: r) ++ rest) fr root nc =
            parseRun ef (synToksL cs ++ ([')'] :: (synToksL r ++ rest)))
              (⟨['|', '|'], []⟩ :: fr) root nc := by
        have htoks : synToksL (.grp true cs :: r) ++ rest =
            ['|', '|'] :: ['('] :: (synToksL cs ++ ([')'] :: (synToksL r ++ rest))) := by
          simp [synToksL]
        rw [htoks, parseRun_opTok ef ['|', '|'] _ fr root nc (by decide) (by decide) (by decide)]
      rw [hopen, ihcs hcs ([')'] :: (synToksL r ++ rest)) _ _ nc,
        pushList_frame, List.nil_append]
      rcases hds : denoteL g cs with _ | ⟨d1, ds⟩
      · exact absurd hds hne2
      rcases ds with _ | ⟨d2, ds2⟩
      · rw [parseRun_close_single ef _ ⟨['|', '|'], [d1]⟩ fr root _ d1 rfl (by simp [isOpKey]),
          ihr hr rest _ _ _]
        simp [denoteL, hds, hasCndL, pushList_cons, Bool.or_assoc]
      · rw [parseRun_close_multi ef _ ⟨['|', '|'], d1 :: d2 :: ds2⟩ fr root _ (by simp)
            (by simp [isOpKey]) (by simp), ihr hr rest _ _ _]
        simp [denoteL, hds, hasCndL, pushList_cons, Bool.or_assoc, opNode]
    | false =>
      have hopen :
          parseRun ef (synToksL (.grp false cs :: r) ++ rest) fr root nc =
            parseRun ef (synToksL cs ++ ([')'] :: (synToksL r ++ rest)))
              (⟨[], []⟩ :: fr) root nc := by
        have htoks : synToksL (.grp false cs :: r) ++ rest =
            ['('] :: (synToksL cs ++ ([')'] :: (synToksL r ++ rest))) := by
          simp [synToksL]
        rw [htoks, parseRun_openParen]
      rw [hopen, ihcs hcs ([')'] :: (synToksL r ++ rest)) _ _ nc,
        pushList_frame, List.nil_append]
      rcases hds : denoteL g cs with _ | ⟨d1, ds⟩
      · exact absurd hds hne2
      rcases ds with _ | ⟨d2, ds2⟩
      · rw [parseRun_close_single ef _ ⟨[], [d1]⟩ fr root _ d1 rfl (by simp [isOpKey]),
          ihr hr rest _ _ _]
        simp [denoteL, hds, hasCndL, pushList_cons, Bool.or_assoc]
      · rw [parseRun_close_multi ef _ ⟨[], d1 :: d2 :: ds2⟩ fr root _ (by simp)
            (by simp [isOpKey]) (by simp), ihr hr rest _ _ _]
        simp [denoteL, hds, hasCndL, pushList_cons, Bool.or_assoc, opNode]
  | case4 k cs r ihcs ihr =>
    intro hgood rest fr root nc
    simp only [goodSynL, Bool.and_eq_true] at hgood
    obtain ⟨⟨⟨hk, hne⟩, hcs⟩, hr⟩ := hgood
    have hlen : (denoteL g cs).length = cs.length := denoteL_length g cs
    have hcsne : cs ≠ [] := by simpa using hne
    have hne2 : ¬(denoteL g cs).isEmpty = true := by
      intro h0
      have h1 : denoteL g cs = [] := by
        cases hdd : denoteL g cs
        · rfl
        · rw [hdd] at h0
          simp at h0
      rw [h1] at hlen
      simp only [List.length_nil] at hlen
      exact hcsne (List.length_eq_zero.mp hlen.symm)
    have htoks : synToksL (.cnd k cs :: r) ++ rest =
        k :: ['('] :: (synToksL cs ++ ([')'] :: (synToksL r ++ rest))) := by
      simp [synToksL]
    rw [htoks,
      parseRun_opTok ef k _ fr root nc (condTokOk_is_op hk)
        (condTokOk_not_close hk) (condTokOk_not_open hk),
      ihcs hcs ([')'] :: (synToksL r ++ rest)) _ _ nc,
      pushList_frame, List.nil_append]
    rw [parseRun_close_cond ef _ ⟨k, denoteL g cs⟩ fr root _ hne2 (condTokOk_not_opKey hk),
      ihr hr rest _ _ _]
    simp [denoteL, hasCndL, pushList_cons]

/-- Success of the parser on the tokens of a valid forest: the run lemma
applied from the initial state. -/
theorem parseToks_forest (ef : Tok → Except ElemErr Atom) (g : Tok → Atom)
    (hg : ∀ k, ef k = .ok (g k)) (ss : List Syn)
    (h : goodSynL false ss = true) :
    parseToks ef (synToksL ss) = .ok (denoteL g ss, hasCndL ss) := by
  have hrun := parseRun_forest ef g hg ss h [] [] [] false
  rw [List.append_nil] at hrun
  rw [parseToks, hrun]
  simp [pushList, parseRun]

theorem wfL_append (a b : List Node) : wfL (a ++ b) = (wfL a && wfL b) := by
  induction a using wfL.induct <;> simp [wfL, *, Bool.and_assoc]

/-- Pushing a well-formed node preserves the frame/root invariant. -/
theorem pushTop_wf {n : Node} {fr : List Frame} {root : List Node}
    (hn : wfL [n] = true) (hfr : ∀ f ∈ fr, wfL f.children = true)
    (hroot : wfL root = true) :
    (∀ f ∈ (pushTop n fr root).1, wfL f.children = true) ∧
      wfL (pushTop n fr root).2 = true := by
  cases fr with
  | nil =>
    refine ⟨by simp [pushTop], ?_⟩
    simp [pushTop, wfL_append, hroot, hn]
  | cons f fs =>
    refine ⟨?_, by simpa [pushTop] using hroot⟩
    intro f2 hf2
    simp only [pushTop, List.mem_cons] at hf2
    rcases hf2 with  h | h
    · subst h
      simp only [wfL_append, Bool.and_eq_true]
      exact ⟨hfr f (by simp), hn⟩
    · exact hfr f2 (by simp [h])

/-- One parser step preserves well-formedness of all pending children. -/
theorem parseStep_wf (ef : Tok → Except ElemErr Atom) (k : Tok) (ks : List Tok)
    (fr : List Frame) (root : List Node) (nc : Bool)
    (hfr : ∀ f ∈ fr, wfL f.children = true) (hroot : wfL root = true)
    (d : Bool) (fr2 : List Frame) (root2 : List Node) (nc2 : Bool)
    (h : parseStep ef k ks fr root nc = .cont d fr2 root2 nc2) :
    (∀ f ∈ fr2, wfL f.children = true) ∧ wfL root2 = true := by
  by_cases hk1 : k = [')']
  · rcases fr with _ | ⟨f, fs⟩
    · simp [parseStep, hk1] at h
    · have hfs : ∀ f2 ∈ fs, wfL f2.children = true := fun f2 h2 => hfr f2 (by simp [h2])
      have hfc : wfL f.children = true := hfr f (by simp)
      rcases hc : f.children with _ | ⟨c1, cr⟩
      · simp [parseStep, hk1, hc] at h
      · rw [hc] at hfc
        by_cases hop : isOpKey f.tag
        · rcases cr with _ | ⟨c2, cr2⟩
          · simp only [parseStep, hk1, if_pos, hc, List.isEmpty_cons, Bool.false_eq_true,
              if_false, hop, if_true, StepRes.cont.injEq] at h
            obtain ⟨_, h1, h2, _⟩ := h
            subst h1
            subst h2
            exact pushTop_wf hfc hfs hroot
          · simp only [parseStep, hk1, if_pos, hc, List.isEmpty_cons, Bool.false_eq_true,
              if_false, hop, if_true, StepRes.cont.injEq] at h
            obtain ⟨_, h1, h2, _⟩ := h
            subst h1
            subst h2
            have hw : wfL [opNode f.tag (c1 :: c2 :: cr2)] = true := by
              rw [opNode]
              split
              · simpa [wfL] using hfc
              · simpa [wfL] using hfc
            exact pushTop_wf hw hfs hroot
        · simp only [parseStep, hk1, if_pos, hc, List.isEmpty_cons, Bool.false_eq_true,
            if_false, hop, StepRes.cont.injEq] at h
          obtain ⟨_, h1, h2, _⟩ := h
          subst h1
          subst h2
          have hw : wfL [Node.cond (decomposeCondTok f.tag) (c1 :: cr)] = true := by
            simpa [wfL] using hfc
          rw [← hc] at hw ⊢
          exact pushTop_wf hw hfs hroot
  · by_cases hk2 : k = ['(']
    · unfold parseStep at h
      rw [if_neg hk1, if_pos hk2] at h
      injection h with hd h1 h2 hnc
      subst h1
      subst h2
      refine ⟨?_, hroot⟩
      intro f2 h2
      simp only [List.mem_cons] at h2
      rcases h2 with h2 | h2
      · subst h2
        simp [wfL]
      · exact hfr f2 h2
    · by_cases hq : (decide (k.getLast? = some '?') || isOpKey k) = true
      · rcases ks with _ | ⟨k2, ks2⟩
        · simp [parseStep, hk1, hk2, hq] at h
        · by_cases hk3 : k2 = ['(']
          · unfold parseStep at h
            rw [if_neg hk1, if_neg hk2, if_pos hq] at h
            simp only [hk3, reduceIte] at h
            injection h with hd h1 h2 hnc
            subst h1
            subst h2
            refine ⟨?_, hroot⟩
            intro f2 h2
            simp only [List.mem_cons] at h2
            rcases h2 with h2 | h2
            · subst h2
              simp [wfL]
            · exact hfr f2 h2
          · simp [parseStep, hk1, hk2, hq, hk3] at h
      · by_cases hp : k.contains '|' = true
        · have hp2 : '|' ∈ k := by simpa using hp
          simp [parseStep, hk1, hk2, hq, hp2] at h
        · have hp2 : ¬('|' ∈ k) := by simpa using hp
          rcases ha : ef k with a | a
          · simp [parseStep, hk1, hk2, hq, hp2, ha] at h
          · unfold parseStep at h
            rw [if_neg hk1, if_neg hk2, if_neg (by simp [hq]), if_neg hp, ha] at h
            injection h with hd h1 h2 hnc
            subst h1
            subst h2
            exact pushTop_wf (by simp [wfL]) hfr hroot

/-- Any successful parser run starting from well-formed pending state
produces a well-formed root forest. -/
theorem parseRun_wf (ef : Tok → Except ElemErr Atom) (toks : List Tok)
    (fr : List Frame) (root : List Node) (nc : Bool) :
    (∀ f ∈ fr, wfL f.children = true) → wfL root = true →
    ∀ res, parseRun ef toks fr root nc = .ok res → wfL res.1 = true := by
  induction toks, fr, root, nc using parseRun.induct ef with
  | case1 root nc =>
    intro _ hroot res hok
    rw [parseRun] at hok
    cases hok
    exact hroot
  | case2 f fs root nc =>
    intro _ _ res hok
    rw [parseRun] at hok
    cases hok
  | case3 k ks frames root nc e hstep =>
    intro _ _ res hok
    rw [parseRun.eq_def] at hok
    simp only [hstep] at hok
    cases hok
  | case4 k ks frames root nc d fr2 root2 nc2 hstep ih =>
    intro hfr hroot res hok
    rw [parseRun.eq_def] at hok
    simp only [hstep] at hok
    obtain ⟨hfr2, hroot2⟩ := parseStep_wf ef k ks frames root nc hfr hroot d fr2 root2 nc2 hstep
    exact ih hfr2 hroot2 res (by simpa using hok)

theorem splitWsAux_all_space (s : List Char) (h : ∀ c ∈ s, isWs c = true) :
    splitWsAux s [] = [] := by
  induction s with
  | nil => rfl
  | cons c cs ih =>
    rw [splitWsAux, if_pos (h c (by simp))]
    simp only [List.isEmpty_nil, if_true, reduceIte]
    exact ih fun c2 h2 => h c2 (by simp [h2])

theorem splitWsAux_no_ws (t acc : List Char) (h : ∀ c ∈ t, isWs c = false) :
    splitWsAux t acc =
      if (acc.reverse ++ t).isEmpty then [] else [acc.reverse ++ t] := by
  induction t generalizing acc with
  | nil => simp [splitWsAux]
  | cons c cs ih =>
    rw [splitWsAux, if_neg (by simp [h c (by simp)])]
    rw [ih (c :: acc) fun c2 h2 => h c2 (by simp [h2])]
    simp

theorem splitWs_token (t : List Char) (hne : t ≠ [])
    (h : ∀ c ∈ t, isWs c = false) : splitWs t = [t] := by
  rw [splitWs, splitWsAux_no_ws t [] h]
  simp [hne]

theorem splitWsAux_append_space (xs ys : List Char) (acc : List Char) :
    splitWsAux (xs ++ ' ' :: ys) acc = splitWsAux xs acc ++ splitWsAux ys [] := by
  induction xs generalizing acc with
  | nil =>
    by_cases hacc : acc.isEmpty = true
    · simp [splitWsAux, isWs, hacc]
    · simp [splitWsAux, isWs, hacc]
  | cons c cs ih =>
    by_cases hc : isWs c = true
    · by_cases hacc : acc.isEmpty = true
      · simp only [List.cons_append, splitWsAux, hc, hacc, if_true, reduceIte]
        exact ih []
      · simp only [List.cons_append, splitWsAux, hc, hacc, if_true, Bool.false_eq_true,
          if_false, reduceIte, List.append_eq]
        rw [ih []]
    · simp only [List.cons_append, splitWsAux, hc, Bool.false_eq_true, if_false, reduceIte]
      exact ih (c :: acc)

theorem splitWs_sjoin (chunks : List Tok) :
    splitWs (sjoin chunks) = chunks.flatMap (fun c => splitWs c) := by
  induction chunks with
  | nil => rfl
  | cons c cs ih =>
    cases cs with
    | nil => simp [sjoin]
    | cons d ds =>
      have h2 := splitWsAux_append_space c (sjoin (d :: ds)) []
      rw [splitWs, show sjoin (c :: d :: ds) = c ++ ' ' :: sjoin (d :: ds) from rfl, h2,
        List.flatMap_cons, ← ih]
      rfl

theorem sjoin_merge (x y : List Char) (r : List Tok) :
    sjoin ((x ++ ' ' :: y) :: r) = sjoin (x :: y :: r) := by
  cases r with
  | nil => simp [sjoin]
  | cons a as => simp [sjoin]

theorem noCondL_append (a b : List Node) :
    noCondL (a ++ b) = (noCondL a && noCondL b) := by
  induction a using noCondL.induct <;> simp [noCondL, *, Bool.and_assoc]

/-- The evaluator eliminates every Conditional node. -/
theorem evalNodes_noCond (env : List Tok) (tri : Option (List Tok)) (ns : List Node) :
    noCondL (evalNodes env tri ns) = true := by
  induction ns using evalNodes.induct env tri with
  | case1 => simp [evalNodes, noCondL]
  | case2 a rest ih => simpa [evalNodes, noCondL] using ih
  | case3 cs rest ih1 ih2 => simp [evalNodes, noCondL, ih1, ih2]
  | case4 cs rest ih1 ih2 => simp [evalNodes, noCondL, ih1, ih2]
  | case5 c cs rest ih1 ih2 =>
    rcases tri with _ | f
    · simp only [evalNodes]
      split <;> simp [noCondL_append, noCondL, ih1, ih2]
    · simp only [evalNodes]
      split <;> (try split) <;> simp [noCondL_append, noCondL, ih1, ih2]

/-- Without a domain collaborator, stringification leaves every node (in
particular every leaf's slot fields) untouched. -/
theorem stringifyNodes_none (func : Atom → Tok) (ns : List Node) :
    (stringifyNodes none func ns).2 = ns := by
  induction ns using stringifyNodes.induct none func <;> simp [stringifyNodes, *]

/-- With a domain, stringification rewrites exactly the `=`-slot leaves. -/
theorem stringifyNodes_some (d : Domain) (func : Atom → Tok) (ns : List Node) :
    (stringifyNodes (some d) func ns).2 = mapLeavesL (rewriteLeaf d) ns := by
  induction ns using stringifyNodes.induct (some d) func with
  | case1 => simp [stringifyNodes, mapLeavesL]
  | case2 a rest ih =>
    rw [stringifyNodes, mapLeavesL, rewriteLeaf]
    split <;> simp_all
  | case3 cs rest ih1 ih2 => simp [stringifyNodes, mapLeavesL, ih1, ih2]
  | case4 cs rest ih1 ih2 => simp [stringifyNodes, mapLeavesL, ih1, ih2]
  | case5 c cs rest ih1 ih2 => simp [stringifyNodes, mapLeavesL, ih1, ih2]

theorem findCondNodes_uncond (a : Atom) (ns : List Node) :
    ∀ stack, a ∈ uncondLeaves ns → (a, stack) ∈ findCondNodes true ns stack := by
  induction ns using uncondLeaves.induct with
  | case1 =>
    intro stack h
    simp [uncondLeaves] at h
  | case2 b r ih =>
    intro stack h
    rw [uncondLeaves] at h
    rw [findCondNodes]
    rcases List.mem_cons.mp h with h | h
    · subst h
      simp
    · simp only [Bool.or_true, if_true, List.singleton_append, List.mem_cons, reduceIte]
      exact Or.inr (ih stack h)
  | case3 cs r ih1 ih2 =>
    intro stack h
    rw [uncondLeaves] at h
    rw [findCondNodes, List.mem_append]
    rcases List.mem_append.mp h with h | h
    · exact Or.inl (ih1 stack h)
    · exact Or.inr (ih2 stack h)
  | case4 cs r ih1 ih2 =>
    intro stack h
    rw [uncondLeaves] at h
    rw [findCondNodes, List.mem_append]
    rcases List.mem_append.mp h with h | h
    · exact Or.inl (ih1 stack h)
    · exact Or.inr (ih2 stack h)
  | case5 c cs r ih =>
    intro stack h
    rw [uncondLeaves] at h
    rw [findCondNodes, List.mem_append]
    exact Or.inr (ih stack h)

theorem ncPass_alwaysRequired (a : Atom) :
    ∀ pairs nc ar, ((a, ([] : List Cond)) ∈ pairs ∨ a ∈ ar) →
      a ∈ (ncPass pairs nc ar).2 := by
  intro pairs
  induction pairs generalizing a with
  | nil =>
    intro nc ar h
    rcases h with h | h
    · simp at h
    · simpa [ncPass] using h
  | cons p rest ih =>
    intro nc ar h
    obtain ⟨b, cs⟩ := p
    cases cs with
    | nil =>
      rw [ncPass]
      apply ih
      rcases h with h | h
      · rcases List.mem_cons.mp h with h | h
        · right
          have hab : a = b := congrArg Prod.fst h
          simp [hab]
        · exact Or.inl h
      · right
        simp [h]
    | cons c cs2 =>
      rw [ncPass]
      apply ih
      rcases h with h | h
      · rcases List.mem_cons.mp h with h | h
        · exact absurd (congrArg Prod.snd h) (by simp)
        · exact Or.inl h
      · exact Or.inr h

theorem lookupNC_delKeys (a : Atom) (nc : List (Atom × List CondEntry))
    (ar : List Atom) (h : a ∈ ar) : lookupNC a (delKeys nc ar) = none := by
  induction nc with
  | nil => rfl
  | cons p rest ih =>
    obtain ⟨b, vs⟩ := p
    rw [delKeys] at ih ⊢
    by_cases hb : ar.contains b
    · simp only [List.filter_cons, hb, Bool.not_true, Bool.false_eq_true, if_false, reduceIte]
      exact ih
    · simp only [List.filter_cons, hb, Bool.not_false, if_true, reduceIte]
      rw [lookupNC, if_neg, ih]
      intro hba
      subst hba
      exact hb (List.elem_eq_true_of_mem h)

/-- The global exclusion law at the level of `computeNodeConds`: a leaf
with an unconditional occurrence is deleted from the map. -/
theorem computeNodeConds_excl (a : Atom) (ns : List Node)
    (h : a ∈ uncondLeaves ns) : lookupNC a (computeNodeConds ns) = none := by
  rw [computeNodeConds]
  apply lookupNC_delKeys
  exact ncPass_alwaysRequired a (findCondNodes true ns []) [] []
    (Or.inl (findCondNodes_uncond a ns [] h))

/-- A strictly canonical forest is in particular syntactically valid. -/
theorem goodSynL_strict_lax (ss : List Syn) (h : goodSynL true ss = true) :
    goodSynL false ss = true := by
  induction ss using goodSynL.induct true with
  | case1 => simp [goodSynL]
  | case2 k r ihr =>
    simp only [goodSynL, Bool.and_eq_true] at h ⊢
    exact ⟨h.1, ihr h.2⟩
  | case3 isOr cs r ihcs ihr =>
    simp only [goodSynL, Bool.and_eq_true, if_true, if_false, reduceIte,
      decide_eq_true_eq] at h ⊢
    refine ⟨⟨?_, ihcs h.1.2⟩, ihr h.2⟩
    have h2 := h.1.1
    cases cs
    · simp at h2
    · simp
  | case4 k cs r ihcs ihr =>
    simp only [goodSynL, Bool.and_eq_true] at h ⊢
    exact ⟨⟨⟨h.1.1.1, h.1.1.2⟩, ihcs h.1.2⟩, ihr h.2⟩

/-- Every token of a valid forest is a non-empty whitespace-free word. -/
theorem synToksL_tokens_ok (ss : List Syn) (h : goodSynL false ss = true) :
    ∀ t ∈ synToksL ss, t ≠ [] ∧ ∀ c ∈ t, isWs c = false := by
  induction ss using synToksL.induct with
  | case1 =>
    intro t ht
    simp [synToksL] at ht
  | case2 k r ihr =>
    simp only [goodSynL, Bool.and_eq_true] at h
    intro t ht
    rw [synToksL] at ht
    rcases List.mem_cons.mp ht with ht | ht
    · subst ht
      have hk := h.1
      simp only [leafTokOk, Bool.and_eq_true, Bool.not_eq_eq_eq_not, Bool.not_true,
        List.isEmpty_eq_true, decide_eq_false_iff_not, List.all_eq_true] at hk
      refine ⟨by simpa using hk.1.1.1.1.1, ?_⟩
      intro c hc
      simpa using hk.1.1.1.1.2 c hc
    · exact ihr h.2 t ht
  | case3 isOr cs r ihcs ihr =>
    simp only [goodSynL, Bool.and_eq_true] at h
    intro t ht
    rw [synToksL] at ht
    have hsplit : t = ['|', '|'] ∨ t = ['('] ∨ t ∈ synToksL cs ∨ t = [')'] ∨
        t ∈ synToksL r := by
      cases isOr with
      | true =>
        simp only [if_true, reduceIte, List.singleton_append, List.mem_cons,
          List.mem_append] at ht
        tauto
      | false =>
        simp only [if_false, Bool.false_eq_true, reduceIte, List.nil_append, List.mem_cons,
          List.mem_append] at ht
        tauto
    rcases hsplit with ht2 | ht2 | ht2 | ht2 | ht2
    · subst ht2
      exact ⟨by simp, by decide⟩
    · subst ht2
      exact ⟨by simp, by decide⟩
    · exact ihcs h.1.2 t ht2
    · subst ht2
      exact ⟨by simp, by decide⟩
    · exact ihr h.2 t ht2
  | case4 k cs r ihcs ihr =>
    simp only [goodSynL, Bool.and_eq_true] at h
    intro t ht
    rw [synToksL] at ht
    have hsplit : t = k ∨ t = ['('] ∨ t ∈ synToksL cs ∨ t = [')'] ∨
        t ∈ synToksL r := by
      simp only [List.mem_cons, List.mem_append] at ht
      tauto
    rcases hsplit with ht2 | ht2 | ht2 | ht2 | ht2
    · subst ht2
      have hk := h.1.1.1
      simp only [condTokOk, Bool.and_eq_true, decide_eq_true_eq, List.all_eq_true] at hk
      refine ⟨?_, ?_⟩
      · intro h0
        rw [h0] at hk
        simp at hk
      · intro c hc
        simpa using hk.2 c hc
    · subst ht2
      exact ⟨by simp, by decide⟩
    · exact ihcs h.1.2 t ht2
    · subst ht2
      exact ⟨by simp, by decide⟩
    · exact ihr h.2 t ht2

theorem flatMap_splitWs_id (ts : List Tok)
    (h : ∀ t ∈ ts, t ≠ [] ∧ ∀ c ∈ t, isWs c = false) :
    ts.flatMap (fun c => splitWs c) = ts := by
  induction ts with
  | nil => rfl
  | cons t rest ih =>
    rw [List.flatMap_cons, splitWs_token t (h t (by simp)).1 (h t (by simp)).2,
      ih fun u hu => h u (by simp [hu])]
    rfl

/-- Canonically spaced text tokenizes back to its token list. -/
theorem splitWs_sjoin_tokens (ss : List Syn) (h : goodSynL false ss = true) :
    splitWs (sjoin (synToksL ss)) = synToksL ss := by
  rw [splitWs_sjoin, flatMap_splitWs_id _ (synToksL_tokens_ok ss h)]

theorem sjoin_cons_congr (t : Tok) (x y : List Tok) (h1 : sjoin x = sjoin y)
    (h2 : x = [] ↔ y = []) : sjoin (t :: x) = sjoin (t :: y) := by
  cases x with
  | nil =>
    have hy : y = [] := h2.mp rfl
    subst hy
    rfl
  | cons x1 xs =>
    cases y with
    | nil =>
      exact absurd (h2.mpr rfl) (by simp)
    | cons y1 ys =>
      show t ++ ' ' :: sjoin (x1 :: xs) = t ++ ' ' :: sjoin (y1 :: ys)
      rw [h1]

theorem sjoin_append_congr (p : List Tok) (x y : List Tok) (h1 : sjoin x = sjoin y)
    (h2 : x = [] ↔ y = []) : sjoin (p ++ x) = sjoin (p ++ y) := by
  induction p with
  | nil => simpa using h1
  | cons t p2 ih =>
    rw [List.cons_append, List.cons_append]
    apply sjoin_cons_congr _ _ _ ih
    constructor
    · intro hx
      rcases List.append_eq_nil.mp hx with ⟨hp, hx2⟩
      simp [hp, h2.mp hx2]
    · intro hy
      rcases List.append_eq_nil.mp hy with ⟨hp, hy2⟩
      simp [hp, h2.mpr hy2]

theorem sjoin_mid_congr (p : List Tok) (t : Tok) (x y : List Tok)
    (h1 : sjoin x = sjoin y) (h2 : x = [] ↔ y = []) :
    sjoin (p ++ t :: x) = sjoin (p ++ t :: y) := by
  have hx : p ++ t :: x = (p ++ [t]) ++ x := by simp
  have hy : p ++ t :: y = (p ++ [t]) ++ y := by simp
  rw [hx, hy]
  exact sjoin_append_congr _ _ _ h1 h2

/-- The `)` chunk and every stringifier chunk sequence of a non-empty
forest is non-empty. -/
theorem stringifyNodes_cons_ne (dom : Option Domain) (func : Atom → Tok)
    (n : Node) (ns : List Node) : (stringifyNodes dom func (n :: ns)).1 ≠ [] := by
  cases n <;> cases dom <;> simp [stringifyNodes]

theorem synToksL_cons_ne (s : Syn) (r : List Syn) : synToksL (s :: r) ≠ [] := by
  cases s with
  | leaf k => simp [synToksL]
  | grp isOr cs => cases isOr <;> simp [synToksL]
  | cnd k cs => simp [synToksL]

theorem denoteL_nil_iff (g : Tok → Atom) (ss : List Syn) :
    denoteL g ss = [] ↔ ss = [] := by
  cases ss with
  | nil => simp [denoteL]
  | cons s r =>
    constructor
    · intro h
      cases s <;> simp [denoteL] at h
    · intro h
      cases h

theorem dropLast_append_last (k : List Char) (hk : k.getLast? = some '?') :
    k.dropLast ++ ['?'] = k := by
  have hne : k ≠ [] := by
    intro h0
    rw [h0] at hk
    simp at hk
  have h2 : k.getLast hne = '?' := by
    have h3 := List.getLast?_eq_getLast k hne
    rw [h3] at hk
    exact Option.some.inj hk
  rw [← h2]
  exact List.dropLast_append_getLast hne

/-- Splitting a conditional token into flag and negation and rendering it
back is the identity on tokens ending in `?`. -/
theorem recomposeCondTok (k : Tok) (hk : k.getLast? = some '?') :
    (if (decomposeCondTok k).negate then ['!'] else []) ++
      ((decomposeCondTok k).flag ++ ['?']) = k := by
  rcases k with _ | ⟨c, rest⟩
  · simp at hk
  · by_cases hc : c = '!'
    · subst hc
      have hr2 : rest.getLast? = some '?' := by
        cases rest with
        | nil => simp at hk
        | cons d ds => rwa [List.getLast?_cons_cons] at hk
      simp only [decomposeCondTok, if_true, List.cons_append, List.nil_append, reduceIte]
      rw [dropLast_append_last rest hr2]
    · have hd : decomposeCondTok (c :: rest) = ⟨(c :: rest).dropLast, false⟩ := by
        rw [decomposeCondTok.eq_def]
        split <;> simp_all
      rw [hd]
      simp only [Bool.false_eq_true, if_false, List.nil_append, reduceIte]
      exact dropLast_append_last (c :: rest) hk

theorem synToksL_nil_iff (r : List Syn) : synToksL r = [] ↔ r = [] := by
  cases r with
  | nil => simp [synToksL]
  | cons s rs =>
    refine ⟨fun h => absurd h (synToksL_cons_ne s rs), fun h => by cases h⟩

theorem chunks_denote_nil_iff (r : List Syn) :
    (stringifyNodes none atomStr (denoteL mkAtom r)).1 = [] ↔ r = [] := by
  cases r with
  | nil => simp [denoteL, stringifyNodes]
  | cons s rs =>
    constructor
    · intro h
      rcases hd : denoteL mkAtom (s :: rs) with _ | ⟨n, ns⟩
      · exact absurd hd (by simp [denoteL_nil_iff])
      · rw [hd] at h
        exact absurd h (stringifyNodes_cons_ne none atomStr n ns)
    · intro h
      cases h

theorem tokens_tail_nil_iff (r : List Syn) (extra : List Tok) :
    (stringifyNodes none atomStr (denoteL mkAtom r)).1 ++ extra = [] ↔
      synToksL r ++ extra = [] := by
  simp [List.append_eq_nil, chunks_denote_nil_iff, synToksL_nil_iff]

/-- Core stringifier/tokenizer correspondence: for a strictly canonical
forest, the space-joined stringifier chunks agree with the space-joined
token stream (with any continuation). -/
theorem chunks_join (ss : List Syn) (h : goodSynL true ss = true) :
    ∀ extra, sjoin ((stringifyNodes none atomStr (denoteL mkAtom ss)).1 ++ extra) =
      sjoin (synToksL ss ++ extra) := by
  induction ss using synToksL.induct with
  | case1 =>
    intro extra
    simp [denoteL, stringifyNodes, synToksL]
  | case2 k r ihr =>
    intro extra
    simp only [goodSynL, Bool.and_eq_true] at h
    simp only [denoteL, stringifyNodes, synToksL, atomStr, mkAtom, List.cons_append]
    exact sjoin_cons_congr k _ _ (ihr h.2 extra) (tokens_tail_nil_iff r extra)
  | case3 isOr cs r ihcs ihr =>
    intro extra
    simp only [goodSynL, Bool.and_eq_true, if_true, reduceIte, decide_eq_true_eq] at h
    obtain ⟨⟨hlen2, hcs⟩, hr⟩ := h
    have hlen : (denoteL mkAtom cs).length = cs.length := denoteL_length mkAtom cs
    rcases hds : denoteL mkAtom cs with _ | ⟨d1, ds⟩
    · rw [hds] at hlen
      simp only [List.length_nil] at hlen
      omega
    rcases ds with _ | ⟨d2, ds2⟩
    · rw [hds] at hlen
      simp only [List.length_cons, List.length_nil] at hlen
      omega
    have hnode : denoteL mkAtom (.grp isOr cs :: r) =
        (if isOr then Node.orR (denoteL mkAtom cs) else Node.andR (denoteL mkAtom cs)) ::
          denoteL mkAtom r := by
      simp [denoteL, hds]
    have hinner : sjoin ((stringifyNodes none atomStr (denoteL mkAtom cs)).1 ++
          ([')'] :: ((stringifyNodes none atomStr (denoteL mkAtom r)).1 ++ extra))) =
        sjoin (synToksL cs ++ ([')'] :: (synToksL r ++ extra))) := by
      rw [ihcs hcs ([')'] :: ((stringifyNodes none atomStr (denoteL mkAtom r)).1 ++ extra))]
      exact sjoin_mid_congr (synToksL cs) [')'] _ _ (ihr hr extra) (tokens_tail_nil_iff r extra)
    cases isOr with
    | true =>
      rw [hnode]
      simp only [if_true, reduceIte]
      rw [show (stringifyNodes none atomStr (Node.orR (denoteL mkAtom cs) :: denoteL mkAtom r)).1 =
          ['|', '|', ' ', '('] ::
            ((stringifyNodes none atomStr (denoteL mkAtom cs)).1 ++
              [')'] :: (stringifyNodes none atomStr (denoteL mkAtom r)).1) from by
        simp [stringifyNodes]]
      rw [synToksL]
      simp only [if_true, reduceIte, List.singleton_append, List.cons_append, List.append_assoc]
      rw [show (['|', '|', ' ', '('] : Tok) = ['|', '|'] ++ ' ' :: ['('] from rfl, sjoin_merge]
      apply sjoin_cons_congr
      · apply sjoin_cons_congr
        · simpa using hinner
        · simp
      · simp
    | false =>
      rw [hnode]
      simp only [Bool.false_eq_true, if_false, reduceIte]
      rw [show (stringifyNodes none atomStr (Node.andR (denoteL mkAtom cs) :: denoteL mkAtom r)).1 =
          ['('] ::
            ((stringifyNodes none atomStr (denoteL mkAtom cs)).1 ++
              [')'] :: (stringifyNodes none atomStr (denoteL mkAtom r)).1) from by
        simp [stringifyNodes]]
      rw [synToksL]
      simp only [Bool.false_eq_true, if_false, reduceIte, List.nil_append, List.cons_append,
        List.append_assoc]
      apply sjoin_cons_congr
      · simpa using hinner
      · simp
  | case4 k cs r ihcs ihr =>
    intro extra
    simp only [goodSynL, Bool.and_eq_true] at h
    obtain ⟨⟨⟨hk, hne⟩, hcs⟩, hr⟩ := h
    have hkq : k.getLast? = some '?' := by
      simp only [condTokOk, Bool.and_eq_true, decide_eq_true_eq] at hk
      exact hk.1
    have hinner : sjoin ((stringifyNodes none atomStr (denoteL mkAtom cs)).1 ++
          ([')'] :: ((stringifyNodes none atomStr (denoteL mkAtom r)).1 ++ extra))) =
        sjoin (synToksL cs ++ ([')'] :: (synToksL r ++ extra))) := by
      rw [ihcs hcs ([')'] :: ((stringifyNodes none atomStr (denoteL mkAtom r)).1 ++ extra))]
      exact sjoin_mid_congr (synToksL cs) [')'] _ _ (ihr hr extra) (tokens_tail_nil_iff r extra)
    have hnode : denoteL mkAtom (.cnd k cs :: r) =
        Node.cond (decomposeCondTok k) (denoteL mkAtom cs) :: denoteL mkAtom r := by
      simp [denoteL]
    rw [hnode]
    rw [show (stringifyNodes none atomStr
          (Node.cond (decomposeCondTok k) (denoteL mkAtom cs) :: denoteL mkAtom r)).1 =
        ((if (decomposeCondTok k).negate then ['!'] else []) ++
            ((decomposeCondTok k).flag ++ ['?', ' ', '('])) ::
          ((stringifyNodes none atomStr (denoteL mkAtom cs)).1 ++
            [')'] :: (stringifyNodes none atomStr (denoteL mkAtom r)).1) from by
      simp [stringifyNodes]]
    rw [synToksL]
    have hchunk : (if (decomposeCondTok k).negate then ['!'] else []) ++
        ((decomposeCondTok k).flag ++ ['?', ' ', '(']) = k ++ ' ' :: ['('] := by
      have h3 : ((decomposeCondTok k).flag ++ ['?', ' ', '(']) =
          ((decomposeCondTok k).flag ++ ['?']) ++ (' ' :: ['(']) := by
        simp
      rw [h3, ← List.append_assoc, recomposeCondTok k hkq]
    rw [hchunk]
    simp only [List.cons_append, List.append_assoc]
    rw [sjoin_merge]
    apply sjoin_cons_congr
    · apply sjoin_cons_congr
      · simpa using hinner
      · simp
    · simp

/-- C2: on a `)` token the innermost frame is popped; an operator-tagged
frame with more than one child wraps its children in that operator's group
node, an operator-tagged frame with exactly one child splices that child
into the parent with no wrapper (also for `||`), and a conditional tag
wraps its children in a Conditional node regardless of count; as in the
spec's example, `( a/b )` collapses to the bare leaf `a/b`, and so does
`|| ( a/b )`. -/
theorem claim_C2_close_paren (ef : Tok → Except ElemErr Atom) (ks : List Tok)
    (f : Frame) (fs : List Frame) (root : List Node) (nc : Bool) :
    (∀ c, f.children = [c] → isOpKey f.tag = true →
      parseRun ef ([')'] :: ks) (f :: fs) root nc =
        parseRun ef ks (pushTop c fs root).1 (pushTop c fs root).2 nc)
    ∧ (isOpKey f.tag = true → f.children ≠ [] → (∀ c, f.children ≠ [c]) →
      parseRun ef ([')'] :: ks) (f :: fs) root nc =
        parseRun ef ks (pushTop (opNode f.tag f.children) fs root).1
          (pushTop (opNode f.tag f.children) fs root).2 nc)
    ∧ (isOpKey f.tag = false → f.children ≠ [] →
      parseRun ef ([')'] :: ks) (f :: fs) root nc =
        parseRun ef ks (pushTop (.cond (decomposeCondTok f.tag) f.children) fs root).1
          (pushTop (.cond (decomposeCondTok f.tag) f.children) fs root).2 true)
    ∧ DepSet.parse mkEf ['a'] "( a/b )".data =
        .ok ⟨[.leaf (mkAtom ['a', '/', 'b'])], ['a'], .flag false⟩
    ∧ DepSet.parse mkEf ['a'] "|| ( a/b )".data =
        .ok ⟨[.leaf (mkAtom ['a', '/', 'b'])], ['a'], .flag false⟩ := by
  refine ⟨?_, ?_, ?_, ?_, ?_⟩
  · intro c hc hop
    exact parseRun_close_single ef ks f fs root nc c hc hop
  · intro hop hne h1
    exact parseRun_close_multi ef ks f fs root nc (by simpa using hne) hop h1
  · intro hop hne
    exact parseRun_close_cond ef ks f fs root nc (by simpa using hne) hop
  · have hs : splitWs "( a/b )".data = [['('], ['a', '/', 'b'], [')']] := by decide
    rw [DepSet.parse, hs]
    simp [parseToks, parseRun, parseStep, pushTop, isOpKey, mkEf, mkAtom, Except.map]
  · have hs : splitWs "|| ( a/b )".data = [['|', '|'], ['('], ['a', '/', 'b'], [')']] := by
      decide
    rw [DepSet.parse, hs]
    simp [parseToks, parseRun, parseStep, pushTop, isOpKey, mkEf, mkAtom, Except.map]

/-- C2 witness: the three close-paren behaviours and the collapse example
at concrete inputs. -/
theorem claim_C2_close_paren_witness :
    (parseRun mkEf [[')']] [⟨[], [.leaf (mkAtom ['a'])]⟩] [] false =
      parseRun mkEf []
        (pushTop (.leaf (mkAtom ['a'])) [] []).1
        (pushTop (.leaf (mkAtom ['a'])) [] []).2 false)
    ∧ (parseRun mkEf [[')']] [⟨['|', '|'], [.leaf (mkAtom ['a']), .leaf (mkAtom ['b'])]⟩] []
        false =
      parseRun mkEf []
        (pushTop (opNode ['|', '|'] [.leaf (mkAtom ['a']), .leaf (mkAtom ['b'])]) [] []).1
        (pushTop (opNode ['|', '|'] [.leaf (mkAtom ['a']), .leaf (mkAtom ['b'])]) [] []).2
        false)
    ∧ (parseRun mkEf [[')']] [⟨['x', '?'], [.leaf (mkAtom ['a'])]⟩] [] false =
      parseRun mkEf []
        (pushTop (.cond (decomposeCondTok ['x', '?']) [.leaf (mkAtom ['a'])]) [] []).1
        (pushTop (.cond (decomposeCondTok ['x', '?']) [.leaf (mkAtom ['a'])]) [] []).2
        true) := by
  refine ⟨?_, ?_, ?_⟩
  · have h := claim_C2_close_paren mkEf [] ⟨[], [.leaf (mkAtom ['a'])]⟩ [] [] false
    have h2 := h.1 (.leaf (mkAtom ['a'])) rfl (by decide)
    simpa using h2
  · have h := claim_C2_close_paren mkEf []
      ⟨['|', '|'], [.leaf (mkAtom ['a']), .leaf (mkAtom ['b'])]⟩ [] [] false
    have h2 := h.2.1 (by decide) (by simp) (by simp)
    simpa using h2
  · have h := claim_C2_close_paren mkEf [] ⟨['x', '?'], [.leaf (mkAtom ['a'])]⟩ [] [] false
    have h2 := h.2.2.1 (by decide) (by simp)
    simpa using h2

/-- C3: `DepSet.parse` raises ParseError exactly for the listed failures:
the parser succeeds on every syntactically valid token stream (the token
stream of any valid forest) when leaf construction succeeds, and each
listed failure is a ParseError: unmatched `)`, empty group, an
operator/conditional token not followed by `(`, tokens exhausted after
such a token, a bare token containing `|`, frames left open at the end of
input, and a leaf-construction failure whose cause is preserved in the
error value. -/
theorem claim_C3_parse_errors :
    (∀ (ef : Tok → Except ElemErr Atom) (g : Tok → Atom), (∀ k, ef k = .ok (g k)) →
      ∀ ss, goodSynL false ss = true →
        parseToks ef (synToksL ss) = .ok (denoteL g ss, hasCndL ss))
    ∧ (∀ ec, DepSet.parse mkEf ec "a/b )".data = .error .badClose)
    ∧ (∀ ec, DepSet.parse mkEf ec "( )".data = .error .badClose)
    ∧ (∀ ec, DepSet.parse mkEf ec "x? a/b".data = .error (.opNoParen ['a', '/', 'b']))
    ∧ (∀ ec, DepSet.parse mkEf ec "x?".data = .error (.exhausted ['x', '?']))
    ∧ (∀ ec, DepSet.parse mkEf ec "a|b".data = .error (.badPipe ['a', '|', 'b']))
    ∧ (∀ ec, DepSet.parse mkEf ec "( a/b".data = .error .unclosed)
    ∧ (∀ (e : ElemErr) (ec : Tok),
        DepSet.parse (fun _ => .error e) ec "a/b".data = .error (.leafFail e)) := by
  refine ⟨?_, ?_, ?_, ?_, ?_, ?_, ?_, ?_⟩
  · intro ef g hg ss hss
    exact parseToks_forest ef g hg ss hss
  · intro ec
    have hs : splitWs "a/b )".data = [['a', '/', 'b'], [')']] := by decide
    rw [DepSet.parse, hs]
    simp [parseToks, parseRun, parseStep, pushTop, isOpKey, mkEf, Except.map]
  · intro ec
    have hs : splitWs "( )".data = [['('], [')']] := by decide
    rw [DepSet.parse, hs]
    simp [parseToks, parseRun, parseStep, isOpKey, Except.map]
  · intro ec
    have hs : splitWs "x? a/b".data = [['x', '?'], ['a', '/', 'b']] := by decide
    rw [DepSet.parse, hs]
    simp [parseToks, parseRun, parseStep, isOpKey, Except.map]
  · intro ec
    have hs : splitWs "x?".data = [['x', '?']] := by decide
    rw [DepSet.parse, hs]
    simp [parseToks, parseRun, parseStep, isOpKey, Except.map]
  · intro ec
    have hs : splitWs "a|b".data = [['a', '|', 'b']] := by decide
    rw [DepSet.parse, hs]
    simp [parseToks, parseRun, parseStep, isOpKey, Except.map]
  · intro ec
    have hs : splitWs "( a/b".data = [['('], ['a', '/', 'b']] := by decide
    rw [DepSet.parse, hs]
    simp [parseToks, parseRun, parseStep, pushTop, isOpKey, mkEf, Except.map]
  · intro e ec
    have hs : splitWs "a/b".data = [['a', '/', 'b']] := by decide
    rw [DepSet.parse, hs]
    simp [parseToks, parseRun, parseStep, isOpKey, Except.map]

/-- C3 witness: the success half at a concrete valid forest, and the
cause-preserving leaf failure at a concrete error value. -/
theorem claim_C3_parse_errors_witness :
    parseToks mkEf (synToksL [Syn.leaf ['a', '/', 'b']]) =
      .ok (denoteL mkAtom [Syn.leaf ['a', '/', 'b']],
        hasCndL [Syn.leaf ['a', '/', 'b']])
    ∧ DepSet.parse (fun _ => .error ['o', 'o', 'p', 's']) ['a'] "a/b".data =
        .error (.leafFail ['o', 'o', 'p', 's']) := by
  constructor
  · exact (claim_C3_parse_errors).1 mkEf mkAtom (fun k => rfl)
      [Syn.leaf ['a', '/', 'b']] (by simp [goodSynL, leafTokOk, isWs])
  · exact (claim_C3_parse_errors).2.2.2.2.2.2.2 ['o', 'o', 'p', 's'] ['a']

/-- C9 (amended): every DepSet produced by `DepSet.parse` is well-formed:
every group node and every Conditional node anywhere in it has a
non-empty children sequence — the parser never constructs an empty group
or conditional. -/
theorem claim_C9_nonempty_groups (ef : Tok → Except ElemErr Atom) (ec : Tok)
    (s : List Char) (t : DepSet) (h : DepSet.parse ef ec s = .ok t) :
    wfL t.restrictions = true := by
  rw [DepSet.parse] at h
  rcases hp : parseToks ef (splitWs s) with e | ⟨root, nc⟩
  · rw [hp] at h
    simp [Except.map] at h
  · rw [hp] at h
    simp only [Except.map, Except.ok.injEq] at h
    have hwf := parseRun_wf ef (splitWs s) [] [] false (by simp) (by simp [wfL])
      (root, nc) hp
    rw [← h]
    exact hwf

/-- C9 witness: well-formedness of a concrete parse result. -/
theorem claim_C9_nonempty_groups_witness : wfL cexT0.restrictions = true := by
  apply claim_C9_nonempty_groups mkEf ['a'] "x? ( a/b ) a/b".data cexT0
  have hs : splitWs "x? ( a/b ) a/b".data =
      [['x', '?'], ['('], ['a', '/', 'b'], [')'], ['a', '/', 'b']] := by decide
  rw [DepSet.parse, hs]
  simp [parseToks, parseRun, parseStep, pushTop, isOpKey, mkEf, decomposeCondTok,
    cexT0, mkAtom, Except.map]

/-- C10: parsing the empty string, or any all-whitespace string, succeeds
with an empty root sequence and `has_conditionals` false, even though the
empty parenthesised group `( )` is a parse error. -/
theorem claim_C10_empty_string :
    (∀ (s : List Char) (ef : Tok → Except ElemErr Atom) (ec : Tok),
      (∀ c ∈ s, isWs c = true) →
      DepSet.parse ef ec s = .ok ⟨[], ec, .flag false⟩ ∧
        (DepSet.mk [] ec (.flag false)).hasConditionals = false)
    ∧ (∀ (ef : Tok → Except ElemErr Atom) (ec : Tok),
        DepSet.parse ef ec "( )".data = .error .badClose) := by
  constructor
  · intro s ef ec hs
    have hsplit : splitWs s = [] := splitWsAux_all_space s hs
    refine ⟨?_, rfl⟩
    rw [DepSet.parse, hsplit]
    simp [parseToks, parseRun, Except.map]
  · intro ef ec
    have hsplit : splitWs "( )".data = [['('], [')']] := by decide
    rw [DepSet.parse, hsplit]
    simp [parseToks, parseRun, parseStep, isOpKey, Except.map]

/-- C10 witness: the empty and a two-space string at a concrete element
function. -/
theorem claim_C10_empty_string_witness :
    DepSet.parse mkEf ['a'] "".data = .ok ⟨[], ['a'], .flag false⟩ ∧
    DepSet.parse mkEf ['a'] "  ".data = .ok ⟨[], ['a'], .flag false⟩ := by
  constructor
  · exact ((claim_C10_empty_string).1 "".data mkEf ['a'] (by decide)).1
  · exact ((claim_C10_empty_string).1 "  ".data mkEf ['a'] (by decide)).1

/-- C4: a leaf reachable by at least one path with no Conditional ancestor
is absent from `node_conds` globally, whatever the parse-time flag. -/
theorem claim_C4_global_exclusion (ns : List Node) (ec : Tok) (b : Bool) (a : Atom)
    (h : a ∈ uncondLeaves ns) :
    lookupNC a ((DepSet.mk ns ec (.flag b)).readNodeConds).1 = none := by
  cases b
  · simp [DepSet.readNodeConds, lookupNC]
  · simp only [DepSet.readNodeConds]
    exact computeNodeConds_excl a ns h

/-- C4 witness: `a/b` occurs unconditionally in `x? ( a/b ) a/b`, so it is
missing from the computed `node_conds` map. -/
theorem claim_C4_global_exclusion_witness :
    lookupNC (mkAtom ['a', '/', 'b'])
      ((DepSet.mk cexT0.restrictions ['a'] (.flag true)).readNodeConds).1 = none := by
  apply claim_C4_global_exclusion
  simp [cexT0, uncondLeaves]

/-- C1 (amended): after the `node_conds` view has been computed,
`has_conditionals` is true exactly when `node_conds` is non-empty; before
that, it reports the parse-time flag unchanged. -/
theorem claim_C1_amended :
    (∀ t : DepSet,
      ((t.readNodeConds).2).hasConditionals = !((t.readNodeConds).1.isEmpty))
    ∧ (∀ (ns : List Node) (ec : Tok) (b : Bool),
        (DepSet.mk ns ec (.flag b)).hasConditionals = b) := by
  constructor
  · intro t
    rcases t with ⟨ns, ec, st⟩
    rcases st with b | m
    · cases b <;> simp [DepSet.readNodeConds, DepSet.hasConditionals]
    · simp [DepSet.readNodeConds, DepSet.hasConditionals]
  · intro ns ec b
    rfl

/-- C1 counterexample: for the DepSet parsed from `x? ( a/b ) a/b`
(before any view is read), `has_conditionals` is true while `node_conds`
computes to the empty map, so the two disagree. -/
theorem claim_C1_counterexample :
    DepSet.parse mkEf ['a'] "x? ( a/b ) a/b".data = .ok cexT0
    ∧ cexT0.hasConditionals = true
    ∧ (cexT0.readNodeConds).1 = []
    ∧ ¬(cexT0.hasConditionals = true ↔ (cexT0.readNodeConds).1 ≠ []) := by
  refine ⟨?_, rfl, ?_, ?_⟩
  · have hs : splitWs "x? ( a/b ) a/b".data =
        [['x', '?'], ['('], ['a', '/', 'b'], [')'], ['a', '/', 'b']] := by decide
    rw [DepSet.parse, hs]
    simp [parseToks, parseRun, parseStep, pushTop, isOpKey, mkEf, decomposeCondTok,
      cexT0, mkAtom, Except.map]
  · simp [cexT0, DepSet.readNodeConds, computeNodeConds, findCondNodes, ncPass, addNC,
      mkCurrent, delKeys, mkAtom]
  · intro hiff
    have h2 := hiff.mp rfl
    apply h2
    simp [cexT0, DepSet.readNodeConds, computeNodeConds, findCondNodes, ncPass, addNC,
      mkCurrent, delKeys, mkAtom]

/-- C5 (amended): whenever `has_conditionals` is true the evaluator
rebuilds a DepSet with no Conditional node, the same element class and a
false flag; whenever `has_conditionals` is false it returns the receiver
itself — which can still contain Conditional nodes in the memoized-empty
state exhibited by the counterexample. -/
theorem claim_C5_amended (t : DepSet) (env : List Tok) (tri : Option (List Tok)) :
    (t.hasConditionals = true →
      t.evaluateDepset env tri =
        ⟨evalNodes env tri t.restrictions, t.elementClass, .flag false⟩ ∧
      noCondL (t.evaluateDepset env tri).restrictions = true)
    ∧ (t.hasConditionals = false → t.evaluateDepset env tri = t) := by
  constructor
  · intro h
    have he := evaluateDepset_of_true env tri h
    refine ⟨he, ?_⟩
    rw [he]
    exact evalNodes_noCond env tri t.restrictions
  · intro h
    exact evaluateDepset_of_false env tri h

/-- C5 witness: the rebuild branch at the parsed `x? ( a/b ) a/b` and the
identity branch at a conditional-free DepSet. -/
theorem claim_C5_amended_witness :
    (cexT0.evaluateDepset [] none =
      ⟨evalNodes [] none cexT0.restrictions, cexT0.elementClass, .flag false⟩ ∧
      noCondL (cexT0.evaluateDepset [] none).restrictions = true)
    ∧ (DepSet.mk [.leaf (mkAtom ['a'])] ['a'] (.flag false)).evaluateDepset [] none =
        DepSet.mk [.leaf (mkAtom ['a'])] ['a'] (.flag false) := by
  constructor
  · exact (claim_C5_amended cexT0 [] none).1 rfl
  · exact (claim_C5_amended (DepSet.mk [.leaf (mkAtom ['a'])] ['a'] (.flag false))
      [] none).2 rfl

/-- C5 counterexample: after reading `node_conds` of the DepSet parsed
from `x? ( a/b ) a/b`, `has_conditionals` is false, so `evaluate_depset`
returns the DepSet itself even though it still contains a Conditional
node — contradicting "returns a DepSet containing zero Conditional
nodes" for every DepSet. -/
theorem claim_C5_counterexample :
    cexT1 = ⟨cexT0.restrictions, ['a'], .computed []⟩
    ∧ cexT1.hasConditionals = false
    ∧ cexT1.evaluateDepset [] none = cexT1
    ∧ noCondL (cexT1.evaluateDepset [] none).restrictions = false := by
  have h1 : cexT1 = ⟨cexT0.restrictions, ['a'], .computed []⟩ := by
    simp [cexT1, cexT0, DepSet.readNodeConds, computeNodeConds, findCondNodes, ncPass,
      addNC, mkCurrent, delKeys, mkAtom]
  have h2 : cexT1.hasConditionals = false := by
    rw [h1]
    rfl
  have h3 : cexT1.evaluateDepset [] none = cexT1 :=
    evaluateDepset_of_false [] none h2
  refine ⟨h1, h2, h3, ?_⟩
  rw [h3, h1]
  simp [cexT0, noCondL, mkAtom]

/-- C6: conditional evaluation is idempotent — re-evaluating the result
of `evaluate_depset` under the same environment returns that result
itself, because the rebuilt DepSet carries a false `node_conds` flag and
the identity short-circuit fires. -/
theorem claim_C6_idempotent (t : DepSet) (env : List Tok) (tri : Option (List Tok)) :
    (t.evaluateDepset env tri).evaluateDepset env tri = t.evaluateDepset env tri := by
  by_cases h : t.hasConditionals = true
  · rw [evaluateDepset_of_true env tri h]
    exact evaluateDepset_of_false env tri rfl
  · have hb : t.hasConditionals = false := by
      simpa using h
    rw [evaluateDepset_of_false env tri hb, evaluateDepset_of_false env tri hb]

/-- C8: with a domain collaborator, stringification rewrites in place
exactly the leaves whose slot operator is `=`, overwriting slot/subslot
with the collaborator's best-match pair before formatting; all other
leaves, and every leaf when no collaborator is given, are untouched. -/
theorem claim_C8_domain_rewrite (func : Atom → Tok) (d : Domain) (ns : List Node) :
    (stringifyNodes (some d) func ns).2 = mapLeavesL (rewriteLeaf d) ns
    ∧ (∀ a : Atom, a.slotOp = some ['='] →
        rewriteLeaf d a = ⟨a.text, (d a).1, (d a).2, a.slotOp⟩)
    ∧ (∀ a : Atom, ¬a.slotOp = some ['='] → rewriteLeaf d a = a)
    ∧ (stringifyNodes none func ns).2 = ns
    ∧ (∀ a : Atom, (stringifyNodes (some d) func [.leaf a]).1 = [func (rewriteLeaf d a)]) := by
  refine ⟨stringifyNodes_some d func ns, ?_, ?_, stringifyNodes_none func ns, ?_⟩
  · intro a ha
    rw [rewriteLeaf, if_pos ha]
  · intro a ha
    rw [rewriteLeaf, if_neg ha]
  · intro a
    rw [rewriteLeaf]
    by_cases ha : a.slotOp = some ['=']
    · simp [stringifyNodes, ha]
    · simp [stringifyNodes, ha]

/-- C8 witness: the rewrite at a slot-locking leaf and the identity at a
plain leaf, for a concrete collaborator. -/
theorem claim_C8_domain_rewrite_witness :
    (stringifyNodes (some fun _ => (['1'], ['2'])) atomStr
        [.leaf ⟨['p'], ['0'], ['0'], some ['=']⟩]).2 =
      mapLeavesL (rewriteLeaf fun _ => (['1'], ['2']))
        [.leaf ⟨['p'], ['0'], ['0'], some ['=']⟩]
    ∧ rewriteLeaf (fun _ => (['1'], ['2'])) ⟨['p'], ['0'], ['0'], some ['=']⟩ =
        ⟨['p'], ['1'], ['2'], some ['=']⟩
    ∧ rewriteLeaf (fun _ => (['1'], ['2'])) (mkAtom ['q']) = mkAtom ['q'] := by
  refine ⟨?_, ?_, ?_⟩
  · exact (claim_C8_domain_rewrite atomStr (fun _ => (['1'], ['2']))
      [.leaf ⟨['p'], ['0'], ['0'], some ['=']⟩]).1
  · exact (claim_C8_domain_rewrite atomStr (fun _ => (['1'], ['2'])) []).2.1
      ⟨['p'], ['0'], ['0'], some ['=']⟩ rfl
  · exact (claim_C8_domain_rewrite atomStr (fun _ => (['1'], ['2'])) []).2.2.1
      (mkAtom ['q']) (by simp [mkAtom])

/-- C7: round-trip — for every canonically spaced input (the space-joined
token stream of a strictly canonical forest: valid tokens, no
single-child operator groups), parsing succeeds and stringifying the
parsed DepSet reproduces the input exactly. -/
theorem claim_C7_roundtrip (s : List Char)
    (h : ∃ ss, goodSynL true ss = true ∧ s = sjoin (synToksL ss)) :
    ∃ t : DepSet, DepSet.parse mkEf ['a'] s = .ok t ∧
      (stringifyBoolean t atomStr none).1 = s := by
  obtain ⟨ss, hgood, rfl⟩ := h
  have hlax := goodSynL_strict_lax ss hgood
  have htoks := splitWs_sjoin_tokens ss hlax
  have hparse := parseToks_forest mkEf mkAtom (fun k => rfl) ss hlax
  refine ⟨⟨denoteL mkAtom ss, ['a'], .flag (hasCndL ss)⟩, ?_, ?_⟩
  · rw [DepSet.parse, htoks, hparse]
    rfl
  · show sjoin (stringifyNodes none atomStr (denoteL mkAtom ss)).1 = sjoin (synToksL ss)
    have hc := chunks_join ss hgood []
    rw [List.append_nil, List.append_nil] at hc
    exact hc

/-- C7 witness: the round trip at the concrete input `|| ( a/b a/c )`. -/
theorem claim_C7_roundtrip_witness :
    ∃ t : DepSet, DepSet.parse mkEf ['a'] "|| ( a/b a/c )".data = .ok t ∧
      (stringifyBoolean t atomStr none).1 = "|| ( a/b a/c )".data := by
  have hs : ("|| ( a/b a/c )".data : List Char) =
      sjoin (synToksL [Syn.grp true [Syn.leaf ['a', '/', 'b'], Syn.leaf ['a', '/', 'c']]]) := by
    simp [synToksL, sjoin]
  rw [hs]
  exact claim_C7_roundtrip _
    ⟨[Syn.grp true [Syn.leaf ['a', '/', 'b'], Syn.leaf ['a', '/', 'c']]],
      by simp [goodSynL, leafTokOk, isWs], rfl⟩

/-- C9 counterexample: the clause that no operation ever constructs an
empty group fails for the (spec-modelled) evaluator: a parsed group whose
children are all dropped conditionals evaluates to a group with an empty
children sequence. -/
theorem claim_C9_counterexample :
    DepSet.parse mkEf ['a'] "( x? ( a ) y? ( b ) )".data =
      .ok ⟨[.andR [.cond ⟨['x'], false⟩ [.leaf (mkAtom ['a'])],
              .cond ⟨['y'], false⟩ [.leaf (mkAtom ['b'])]]], ['a'], .flag true⟩
    ∧ (DepSet.mk
        [.andR [.cond ⟨['x'], false⟩ [.leaf (mkAtom ['a'])],
                .cond ⟨['y'], false⟩ [.leaf (mkAtom ['b'])]]]
        ['a'] (.flag true)).evaluateDepset [] none =
      ⟨[.andR []], ['a'], .flag false⟩
    ∧ wfL [.andR []] = false := by
  refine ⟨?_, ?_, by simp [wfL]⟩
  · have hs : splitWs "( x? ( a ) y? ( b ) )".data =
        [['('], ['x', '?'], ['('], ['a'], [')'], ['y', '?'], ['('], ['b'], [')'], [')']] := by
      decide
    rw [DepSet.parse, hs]
    simp [parseToks, parseRun, parseStep, pushTop, isOpKey, opNode, mkEf,
      decomposeCondTok, mkAtom, Except.map]
  · rw [evaluateDepset_of_true [] none (show (DepSet.mk
        [.andR [.cond ⟨['x'], false⟩ [.leaf (mkAtom ['a'])],
                .cond ⟨['y'], false⟩ [.leaf (mkAtom ['b'])]]]
        ['a'] (.flag true)).hasConditionals = true from rfl)]
    simp [evalNodes, mkAtom]
